import Mathlib

/-!
Verification of the title-normalization core of m4btool (src/main.rs).

Strings are modelled as `List Char` (Rust strings viewed as character
sequences; every operation of the core is character-based).  Floating-point
threshold arithmetic (`f64` in the source) is idealized as exact rational
arithmetic over `ℚ`: the frequency ratio `count / total` is computed exactly
rather than with IEEE rounding.  `usize` counters are modelled as `Nat`
(occurrence counts cannot realistically overflow and the source performs no
wrapping arithmetic on them).
-/

set_option autoImplicit false

namespace M4b

/-- A token parsed from a chapter title, mirroring `struct TitleToken`
in src/main.rs: either a bracketed segment or a plain text run. -/
structure TitleToken where
  is_bracketed : Bool
  text : List Char
  deriving DecidableEq, Repr

/-- One single-character `str::replace` step: `s.replace(a, b)` for
one-character patterns replaces every occurrence of `a` by `b`. -/
def replace1 (a b : Char) (s : List Char) : List Char :=
  s.map fun c => if c = a then b else c

/-- `standardize_brackets` from src/main.rs: the chain
replace （→[ , ）→] , (→[ , )→] , 【→[ , 】→] applied left to right. -/
def standardize_brackets (s : List Char) : List Char :=
  replace1 '】' ']'
    (replace1 '【' '['
      (replace1 ')' ']'
        (replace1 '(' '['
          (replace1 '）' ']'
            (replace1 '（' '[' s)))))

/-- The per-character effect of the six chained replaces of
`standardize_brackets` (proved equal to the chain below). -/
def standardizeChar (c : Char) : Char :=
  if c = '（' then '[' else
  if c = '）' then ']' else
  if c = '(' then '[' else
  if c = ')' then ']' else
  if c = '【' then '[' else
  if c = '】' then ']' else c

/-- The Unicode White_Space class, which is what both the regex class
Backslash-s and Rust `char::is_whitespace` (used by `str::trim`) match. -/
def rsIsWhitespace (c : Char) : Bool :=
  c == '\t' || c == '\n' || c == '\x0b' || c == '\x0c' || c == '\r' ||
  c == ' ' || c == '\u0085' || c == ' ' || c == ' ' ||
  (0x2000 ≤ c.toNat && c.toNat ≤ 0x200a) ||
  c == ' ' || c == ' ' || c == ' ' || c == ' ' ||
  c == '　'

/-- The separator characters of the tokenizer regex: ASCII digits,
whitespace, hyphen, ASCII colon and full-width colon. -/
def isSeparatorChar (c : Char) : Bool :=
  c.isDigit || rsIsWhitespace c || c == '-' || c == ':' || c == '：'

/-- The bracket/parenthesis characters excluded from plain runs. -/
def isBracketChar (c : Char) : Bool :=
  c == '(' || c == ')' || c == '[' || c == ']'

/-- Membership in the regex character class of plain runs:
`[^0-9\s\-:：\(\)\[\]]` — neither a separator nor a bracket character. -/
def isPlainChar (c : Char) : Bool :=
  !(isSeparatorChar c || isBracketChar c)

/-- The non-greedy bracketed-span tail: given the characters after an
opening delimiter, consume up to and including the first `close`;
fail (as the regex `.` does) if a newline or the end of input comes first.
On success returns the consumed span (ending in `close`) and the rest. -/
def takeDelim (close : Char) : List Char → Option (List Char × List Char)
  | [] => none
  | c :: rest =>
    if c = close then some ([c], rest)
    else if c = '\n' then none
    else
      match takeDelim close rest with
      | some (tk, r) => some (c :: tk, r)
      | none => none

/-- The scan loop of `split_title_tokens`: the regex
`(\(.*?\)|\[.*?\])|([^0-9\s\-:：\(\)\[\]]+)` iterated left to right
(`captures_iter`).  At each position the engine first tries a bracketed
span (paren alternative, then square-bracket alternative — they cannot
both start at one position since their opening characters differ), then a
maximal plain run; characters starting no match are skipped.
`fuel` bounds the recursion; `fuel = length of the input` always suffices
since every step consumes at least one character. -/
def scanAux : ℕ → List Char → List TitleToken
  | 0, _ => []
  | fuel + 1, s =>
    match s with
    | [] => []
    | c :: rest =>
      if c = '(' then
        match takeDelim ')' rest with
        | some (tk, r) => ⟨true, c :: tk⟩ :: scanAux fuel r
        | none => scanAux fuel rest
      else if c = '[' then
        match takeDelim ']' rest with
        | some (tk, r) => ⟨true, c :: tk⟩ :: scanAux fuel r
        | none => scanAux fuel rest
      else if isPlainChar c then
        ⟨false, c :: rest.takeWhile isPlainChar⟩ ::
          scanAux fuel (rest.dropWhile isPlainChar)
      else
        scanAux fuel rest

/-- `split_title_tokens` from src/main.rs: standardize brackets, then
scan the result into bracketed and plain tokens. -/
def split_title_tokens (title : List Char) : List TitleToken :=
  scanAux (standardize_brackets title).length (standardize_brackets title)

/-- A frequency table: the `HashMap<String, usize>` of the source,
modelled as an association list with distinct keys reached by `bump`. -/
abbrev FreqTable := List (List Char × ℕ)

/-- `token_frequency.get(&text).copied().unwrap_or(0)`: the count stored
for a key, zero when the key is absent. -/
def lookupCount : FreqTable → List Char → ℕ
  | [], _ => 0
  | (k, v) :: rest, key => if k = key then v else lookupCount rest key

/-- `*token_frequency.entry(text).or_insert(0) += 1`: increment the
count of a key, inserting it with count 1 when absent. -/
def bump : FreqTable → List Char → FreqTable
  | [], key => [(key, 1)]
  | (k, v) :: rest, key =>
    if k = key then (k, v + 1) :: rest else (k, v) :: bump rest key

/-- The inner loop of `build_token_frequency`: fold one title's tokens
into the table, counting only non-bracketed tokens. -/
def addTitle (tbl : FreqTable) (toks : List TitleToken) : FreqTable :=
  toks.foldl (fun t tok => if tok.is_bracketed then t else bump t tok.text) tbl

/-- `build_token_frequency` from src/main.rs: count every plain token
occurrence across all titles. -/
def build_token_frequency (titles : List (List Char)) : FreqTable :=
  titles.foldl (fun tbl title => addTitle tbl (split_title_tokens title)) []

/-- The token loop of `dynamic_clean_title`.  The flag is
`in_removal_phase`; while it holds, a non-bracketed token whose frequency
ratio reaches the threshold is skipped (`continue`); otherwise the token is
kept and the phase ends; a bracketed token also ends the phase and is kept.
The `f64` ratio comparison `freq / total >= threshold` is idealized over
`ℚ`.  (For `total = 0`, Rust computes `0.0/0.0 = NaN` when the count is 0,
and `NaN >= t` is false — the same "keep" outcome as the rational junk
value `0/0 = 0` compared against a positive threshold.) -/
def cleanLoop (tbl : FreqTable) (total : ℕ) (threshold : ℚ) :
    Bool → List TitleToken → List (List Char)
  | _, [] => []
  | inRemoval, tok :: rest =>
    if inRemoval && !tok.is_bracketed then
      if ((lookupCount tbl tok.text : ℚ) / (total : ℚ)) ≥ threshold then
        cleanLoop tbl total threshold inRemoval rest
      else
        tok.text :: cleanLoop tbl total threshold false rest
    else
      tok.text ::
        cleanLoop tbl total threshold
          (if tok.is_bracketed then false else inRemoval) rest

/-- Rust `str::trim`: remove leading and trailing Unicode whitespace. -/
def rustTrim (s : List Char) : List Char :=
  ((s.dropWhile rsIsWhitespace).reverse.dropWhile rsIsWhitespace).reverse

/-- `dynamic_clean_title` from src/main.rs: tokenize, run the removal
loop starting in the removal phase, join the surviving texts with no
separator and trim. -/
def dynamic_clean_title (title : List Char) (tbl : FreqTable)
    (total : ℕ) (threshold : ℚ) : List Char :=
  rustTrim (cleanLoop tbl total threshold true (split_title_tokens title)).flatten

/-- The number of leading tokens dropped by `cleanLoop` when started in
the removal phase: the longest prefix of non-bracketed tokens whose
frequency ratio reaches the threshold. -/
def dropCount (tbl : FreqTable) (total : ℕ) (threshold : ℚ) :
    List TitleToken → ℕ
  | [] => 0
  | tok :: rest =>
    if tok.is_bracketed then 0
    else if ((lookupCount tbl tok.text : ℚ) / (total : ℚ)) ≥ threshold then
      dropCount tbl total threshold rest + 1
    else 0

/-- Outside the removal phase the loop keeps every token unconditionally:
it reduces to mapping each token to its text. -/
theorem cleanLoop_keep_all (tbl : FreqTable) (total : ℕ) (threshold : ℚ) :
    ∀ toks : List TitleToken,
      cleanLoop tbl total threshold false toks = toks.map TitleToken.text := by
  intro toks
  induction toks with
  | nil => rfl
  | cons tok rest ih => simp [cleanLoop, ih]

/-- Started in the removal phase, the loop returns the texts of the tokens
that remain after dropping the first `dropCount` tokens. -/
theorem cleanLoop_eq_drop (tbl : FreqTable) (total : ℕ) (threshold : ℚ) :
    ∀ toks : List TitleToken,
      cleanLoop tbl total threshold true toks
        = (toks.drop (dropCount tbl total threshold toks)).map TitleToken.text := by
  intro toks
  induction toks with
  | nil => rfl
  | cons tok rest ih =>
    by_cases hb : tok.is_bracketed = true
    · simp [cleanLoop, dropCount, hb, cleanLoop_keep_all]
    · by_cases hr : ((lookupCount tbl tok.text : ℚ) / (total : ℚ)) ≥ threshold
      · simpa [cleanLoop, dropCount, hb, hr] using ih
      · simp [cleanLoop, dropCount, hb, hr, cleanLoop_keep_all]

theorem dropCount_le (tbl : FreqTable) (total : ℕ) (threshold : ℚ) :
    ∀ toks : List TitleToken, dropCount tbl total threshold toks ≤ toks.length := by
  intro toks
  induction toks with
  | nil => exact Nat.le_refl 0
  | cons tok rest ih =>
    by_cases hb : tok.is_bracketed = true
    · simp [dropCount, hb]
    · by_cases hr : ((lookupCount tbl tok.text : ℚ) / (total : ℚ)) ≥ threshold
      · simpa [dropCount, hb, hr, Nat.succ_le_succ_iff] using ih
      · simp [dropCount, hb, hr]

/-- Every token the removal phase drops is a non-bracketed token. -/
theorem take_dropCount_plain (tbl : FreqTable) (total : ℕ) (threshold : ℚ) :
    ∀ toks : List TitleToken, ∀ tok ∈ toks.take (dropCount tbl total threshold toks),
      tok.is_bracketed = false := by
  intro toks
  induction toks with
  | nil => simp
  | cons tok rest ih =>
    by_cases hb : tok.is_bracketed = true
    · simp [dropCount, hb]
    · by_cases hr : ((lookupCount tbl tok.text : ℚ) / (total : ℚ)) ≥ threshold
      · intro t ht
        rw [dropCount] at ht
        simp only [hb, if_neg, ite_false, Bool.false_eq_true, hr, ite_true, ge_iff_le,
          if_pos, List.take_succ_cons, List.mem_cons] at ht
        rcases ht with h | h
        · subst h; exact Bool.eq_false_iff.mpr hb
        · exact ih t h
      · intro t ht
        rw [dropCount] at ht
        simp [hb, hr] at ht

/-- Raising the threshold can only shorten the dropped leading run. -/
theorem dropCount_antitone (tbl : FreqTable) (total : ℕ) {t1 t2 : ℚ} (h : t1 ≤ t2) :
    ∀ toks : List TitleToken,
      dropCount tbl total t2 toks ≤ dropCount tbl total t1 toks := by
  intro toks
  induction toks with
  | nil => exact Nat.le_refl 0
  | cons tok rest ih =>
    by_cases hb : tok.is_bracketed = true
    · simp [dropCount, hb]
    · by_cases h2 : ((lookupCount tbl tok.text : ℚ) / (total : ℚ)) ≥ t2
      · have h1 : ((lookupCount tbl tok.text : ℚ) / (total : ℚ)) ≥ t1 :=
          le_trans h h2
        simpa [dropCount, hb, h1, h2, Nat.succ_le_succ_iff] using ih
      · simp [dropCount, hb, h2]

example : split_title_tokens ("Chapter 1 [Intro]".toList) =
    [⟨false, "Chapter".toList⟩, ⟨true, "[Intro]".toList⟩] := by decide

example : split_title_tokens ("(Special) Bonus".toList) =
    [⟨true, "[Special]".toList⟩, ⟨false, "Bonus".toList⟩] := by decide

example : split_title_tokens ("[".toList) = [] := by decide

/-- Claim C1: for every title, frequency table, total number of titles at
least 1 and threshold in the interval (0, 1], no token classified as
bracketed by the tokenizer is ever dropped by the cleaner: the text of
every bracketed token of the title appears in the surviving token
sequence, even when the token is met while the stripping phase is still
active. -/
theorem bracketed_tokens_never_dropped
    (title : List Char) (tbl : FreqTable) (total : ℕ) (threshold : ℚ)
    (htot : 1 ≤ total) (ht0 : 0 < threshold) (ht1 : threshold ≤ 1)
    (tok : TitleToken) (hmem : tok ∈ split_title_tokens title)
    (hbr : tok.is_bracketed = true) :
    tok.text ∈ cleanLoop tbl total threshold true (split_title_tokens title) := by
  rw [cleanLoop_eq_drop]
  have hsplit := List.take_append_drop
    (dropCount tbl total threshold (split_title_tokens title)) (split_title_tokens title)
  rw [← hsplit] at hmem
  rcases List.mem_append.mp hmem with h | h
  · have := take_dropCount_plain tbl total threshold (split_title_tokens title) tok h
    rw [hbr] at this
    exact absurd this (by simp)
  · exact List.mem_map_of_mem TitleToken.text h

theorem bracketed_tokens_never_dropped_witness :
    (⟨true, "[b]".toList⟩ : TitleToken).text ∈
      cleanLoop [] 1 1 true (split_title_tokens ("a[b]".toList)) :=
  bracketed_tokens_never_dropped ("a[b]".toList) [] 1 1 (by decide)
    (by norm_num) (by norm_num) ⟨true, "[b]".toList⟩ (by decide) rfl

/-- Claim C2: cleaning is a prefix-only filter: for every title, table,
total number of titles at least 1 and threshold in (0, 1], the surviving
tokens are exactly a contiguous suffix of the tokenized title — once one
token is kept every later token is kept unconditionally. -/
theorem clean_keeps_contiguous_suffix
    (title : List Char) (tbl : FreqTable) (total : ℕ) (threshold : ℚ)
    (htot : 1 ≤ total) (ht0 : 0 < threshold) (ht1 : threshold ≤ 1) :
    ∃ n ≤ (split_title_tokens title).length,
      cleanLoop tbl total threshold true (split_title_tokens title)
        = ((split_title_tokens title).drop n).map TitleToken.text :=
  ⟨dropCount tbl total threshold (split_title_tokens title),
    dropCount_le tbl total threshold (split_title_tokens title),
    cleanLoop_eq_drop tbl total threshold (split_title_tokens title)⟩

theorem clean_keeps_contiguous_suffix_witness :
    ∃ n ≤ (split_title_tokens ("Chapter 1 [Intro]".toList)).length,
      cleanLoop [("Chapter".toList, 3)] 3 (4/5) true
          (split_title_tokens ("Chapter 1 [Intro]".toList))
        = ((split_title_tokens ("Chapter 1 [Intro]".toList)).drop n).map TitleToken.text :=
  clean_keeps_contiguous_suffix ("Chapter 1 [Intro]".toList)
    [("Chapter".toList, 3)] 3 (4/5) (by decide) (by norm_num) (by norm_num)

/-- Claim C3: while the stripping phase is active, a plain token is
dropped exactly when its ratio `count / total_titles` (count 0 when the
text is absent from the table) reaches the threshold, the comparison
being inclusive; when the ratio is below the threshold the token is kept
and stripping ends permanently, so every later token survives. -/
theorem plain_drop_iff_ratio_ge_threshold
    (tbl : FreqTable) (total : ℕ) (threshold : ℚ) (tok : TitleToken)
    (rest : List TitleToken) (htot : 1 ≤ total) (ht0 : 0 < threshold)
    (ht1 : threshold ≤ 1) (hpl : tok.is_bracketed = false) :
    (((lookupCount tbl tok.text : ℚ) / (total : ℚ) ≥ threshold) →
      cleanLoop tbl total threshold true (tok :: rest)
        = cleanLoop tbl total threshold true rest)
    ∧ (((lookupCount tbl tok.text : ℚ) / (total : ℚ) < threshold) →
      cleanLoop tbl total threshold true (tok :: rest)
        = tok.text :: rest.map TitleToken.text) := by
  constructor
  · intro h
    simp [cleanLoop, hpl, h]
  · intro h
    simp [cleanLoop, hpl, not_le.mpr h, cleanLoop_keep_all]

theorem plain_drop_iff_ratio_ge_threshold_witness :
    cleanLoop [("Chapter".toList, 3)] 3 (4/5) true
        [⟨false, "Chapter".toList⟩, ⟨true, "[Intro]".toList⟩]
      = cleanLoop [("Chapter".toList, 3)] 3 (4/5) true [⟨true, "[Intro]".toList⟩] :=
  (plain_drop_iff_ratio_ge_threshold [("Chapter".toList, 3)] 3 (4/5)
      ⟨false, "Chapter".toList⟩ [⟨true, "[Intro]".toList⟩]
      (by decide) (by norm_num) (by norm_num) rfl).1
    (by
      have h : lookupCount [("Chapter".toList, 3)] ("Chapter".toList) = 3 := by decide
      rw [h]
      norm_num)

/-- Claim C4: cleaning is monotone in the threshold: for a fixed title,
table and total number of titles at least 1, and thresholds t1 ≤ t2 in
(0, 1], the leading tokens dropped at t2 are a prefix (hence a subset) of
those dropped at t1, and the tokens surviving at t1 are a suffix of those
surviving at t2. -/
theorem dropped_prefix_antitone_in_threshold
    (title : List Char) (tbl : FreqTable) (total : ℕ) (t1 t2 : ℚ)
    (htot : 1 ≤ total) (h0 : 0 < t1) (h12 : t1 ≤ t2) (h1 : t2 ≤ 1) :
    ((split_title_tokens title).take
        (dropCount tbl total t2 (split_title_tokens title)))
      <+: ((split_title_tokens title).take
        (dropCount tbl total t1 (split_title_tokens title)))
    ∧ (cleanLoop tbl total t1 true (split_title_tokens title))
      <:+ (cleanLoop tbl total t2 true (split_title_tokens title)) := by
  have hn : dropCount tbl total t2 (split_title_tokens title)
      ≤ dropCount tbl total t1 (split_title_tokens title) :=
    dropCount_antitone tbl total h12 (split_title_tokens title)
  constructor
  · have : (split_title_tokens title).take
        (dropCount tbl total t2 (split_title_tokens title))
        = ((split_title_tokens title).take
            (dropCount tbl total t1 (split_title_tokens title))).take
          (dropCount tbl total t2 (split_title_tokens title)) := by
      rw [List.take_take, min_eq_left hn]
    rw [this]
    exact List.take_prefix _ _
  · rw [cleanLoop_eq_drop, cleanLoop_eq_drop]
    have hdrop : (split_title_tokens title).drop
        (dropCount tbl total t1 (split_title_tokens title))
        = ((split_title_tokens title).drop
            (dropCount tbl total t2 (split_title_tokens title))).drop
          (dropCount tbl total t1 (split_title_tokens title)
            - dropCount tbl total t2 (split_title_tokens title)) := by
      rw [List.drop_drop, Nat.add_sub_cancel' hn]
    rw [hdrop]
    exact (List.drop_suffix _ _).map TitleToken.text

theorem dropped_prefix_antitone_in_threshold_witness :
    ((split_title_tokens ("Chapter 1 [Intro]".toList)).take
        (dropCount [("Chapter".toList, 3)] 3 1
          (split_title_tokens ("Chapter 1 [Intro]".toList))))
      <+: ((split_title_tokens ("Chapter 1 [Intro]".toList)).take
        (dropCount [("Chapter".toList, 3)] 3 (4/5)
          (split_title_tokens ("Chapter 1 [Intro]".toList))))
    ∧ (cleanLoop [("Chapter".toList, 3)] 3 (4/5) true
        (split_title_tokens ("Chapter 1 [Intro]".toList)))
      <:+ (cleanLoop [("Chapter".toList, 3)] 3 1 true
        (split_title_tokens ("Chapter 1 [Intro]".toList))) :=
  dropped_prefix_antitone_in_threshold ("Chapter 1 [Intro]".toList)
    [("Chapter".toList, 3)] 3 (4/5) 1 (by decide) (by norm_num) (by norm_num)
    (by norm_num)

/-- The six chained single-character replaces act pointwise as
`standardizeChar`. -/
theorem standardize_brackets_eq_map (s : List Char) :
    standardize_brackets s = s.map standardizeChar := by
  induction s with
  | nil => rfl
  | cons c rest ih =>
    simp only [standardize_brackets, replace1, List.map_cons] at ih ⊢
    rw [ih]
    refine congrArg (fun x => x :: rest.map standardizeChar) ?_
    by_cases h1 : c = '（'
    · subst h1; decide
    · by_cases h2 : c = '）'
      · subst h2; decide
      · by_cases h3 : c = '('
        · subst h3; decide
        · by_cases h4 : c = ')'
          · subst h4; decide
          · by_cases h5 : c = '【'
            · subst h5; decide
            · by_cases h6 : c = '】'
              · subst h6; decide
              · simp [standardizeChar, h1, h2, h3, h4, h5, h6]

theorem standardizeChar_idem (c : Char) :
    standardizeChar (standardizeChar c) = standardizeChar c := by
  by_cases h1 : c = '（'
  · subst h1; rfl
  · by_cases h2 : c = '）'
    · subst h2; rfl
    · by_cases h3 : c = '('
      · subst h3; rfl
      · by_cases h4 : c = ')'
        · subst h4; rfl
        · by_cases h5 : c = '【'
          · subst h5; rfl
          · by_cases h6 : c = '】'
            · subst h6; rfl
            · have h : standardizeChar c = c := by
                simp [standardizeChar, h1, h2, h3, h4, h5, h6]
              rw [h]; exact h

/-- Claim C9: bracket standardization is idempotent: applying
`standardize_brackets` twice yields the same string as applying it once. -/
theorem standardize_brackets_idempotent (s : List Char) :
    standardize_brackets (standardize_brackets s) = standardize_brackets s := by
  rw [standardize_brackets_eq_map, standardize_brackets_eq_map, List.map_map]
  exact List.map_congr_left fun c _ => standardizeChar_idem c

/-- Soundness of the bracketed-span reader: on success it has consumed a
non-empty prefix of the input ending in the closing delimiter. -/
theorem takeDelim_sound (close : Char) :
    ∀ (s tk r : List Char), takeDelim close s = some (tk, r) →
      s = tk ++ r ∧ tk ≠ [] ∧ tk.getLast? = some close := by
  intro s
  induction s with
  | nil => intro tk r h; simp [takeDelim] at h
  | cons c rest ih =>
    intro tk r h
    rw [takeDelim] at h
    by_cases hc : c = close
    · rw [if_pos hc] at h
      simp only [Option.some.injEq, Prod.mk.injEq] at h
      obtain ⟨rfl, rfl⟩ := h
      exact ⟨rfl, by simp, by simp [hc]⟩
    · rw [if_neg hc] at h
      by_cases hn : c = '\n'
      · rw [if_pos hn] at h
        exact absurd h (by simp)
      · rw [if_neg hn] at h
        cases hdel : takeDelim close rest with
        | none => rw [hdel] at h; simp at h
        | some pr =>
          obtain ⟨tk', r'⟩ := pr
          rw [hdel] at h
          simp only [Option.some.injEq, Prod.mk.injEq] at h
          obtain ⟨rfl, rfl⟩ := h
          obtain ⟨hsr, hne, hlast⟩ := ih tk' r' hdel
          refine ⟨by rw [hsr]; rfl, by simp, ?_⟩
          cases tk' with
          | nil => exact absurd rfl hne
          | cons d l => rw [List.getLast?_cons_cons]; exact hlast

/-- Well-formedness of every token emitted by the scan loop: non-empty
text; plain tokens contain only plain-class characters; bracketed tokens
start with their opening delimiter and end with the matching closing
delimiter. -/
theorem scanAux_wellformed :
    ∀ (fuel : ℕ) (s : List Char), ∀ tok ∈ scanAux fuel s,
      tok.text ≠ [] ∧
      (tok.is_bracketed = false → ∀ c ∈ tok.text, isPlainChar c = true) ∧
      (tok.is_bracketed = true →
        (tok.text.head? = some '[' ∧ tok.text.getLast? = some ']') ∨
        (tok.text.head? = some '(' ∧ tok.text.getLast? = some ')')) := by
  intro fuel
  induction fuel with
  | zero => intro s tok h; simp [scanAux] at h
  | succ n ih =>
    intro s tok h
    match s with
    | [] => simp [scanAux] at h
    | c :: rest =>
      rw [scanAux] at h
      by_cases hp : c = '('
      · rw [if_pos hp] at h
        cases hdel : takeDelim ')' rest with
        | none => rw [hdel] at h; exact ih _ tok h
        | some pr =>
          obtain ⟨tk, r⟩ := pr
          rw [hdel] at h
          rcases List.mem_cons.mp h with rfl | h
          · obtain ⟨-, hne, hlast⟩ := takeDelim_sound ')' rest tk r hdel
            refine ⟨by simp, by simp, fun _ => Or.inr ⟨by simp [hp], ?_⟩⟩
            cases tk with
            | nil => exact absurd rfl hne
            | cons d l => rw [List.getLast?_cons_cons]; exact hlast
          · exact ih _ tok h
      · rw [if_neg hp] at h
        by_cases hb : c = '['
        · rw [if_pos hb] at h
          cases hdel : takeDelim ']' rest with
          | none => rw [hdel] at h; exact ih _ tok h
          | some pr =>
            obtain ⟨tk, r⟩ := pr
            rw [hdel] at h
            rcases List.mem_cons.mp h with rfl | h
            · obtain ⟨-, hne, hlast⟩ := takeDelim_sound ']' rest tk r hdel
              refine ⟨by simp, by simp, fun _ => Or.inl ⟨by simp [hb], ?_⟩⟩
              cases tk with
              | nil => exact absurd rfl hne
              | cons d l => rw [List.getLast?_cons_cons]; exact hlast
            · exact ih _ tok h
        · rw [if_neg hb] at h
          by_cases hpl : isPlainChar c = true
          · rw [if_pos hpl] at h
            rcases List.mem_cons.mp h with rfl | h
            · refine ⟨by simp, fun _ c' hc' => ?_, by simp⟩
              rcases List.mem_cons.mp hc' with rfl | hc'
              · exact hpl
              · exact List.mem_takeWhile_imp hc'
            · exact ih _ tok h
          · rw [if_neg hpl] at h
            exact ih _ tok h

/-- Claim C10: every token emitted by `split_title_tokens` has non-empty
text; a non-bracketed token's text contains no digit, no whitespace, no
hyphen, no ASCII or full-width colon and no bracket or parenthesis
character; a bracketed token's text begins with an opening bracket and
ends with the matching closing bracket. -/
theorem split_title_tokens_wellformed
    (title : List Char) (tok : TitleToken) (hmem : tok ∈ split_title_tokens title) :
    tok.text ≠ [] ∧
    (tok.is_bracketed = false → ∀ c ∈ tok.text,
      c.isDigit = false ∧ rsIsWhitespace c = false ∧ c ≠ '-' ∧ c ≠ ':' ∧ c ≠ '：' ∧
      c ≠ '(' ∧ c ≠ ')' ∧ c ≠ '[' ∧ c ≠ ']') ∧
    (tok.is_bracketed = true →
      (tok.text.head? = some '[' ∧ tok.text.getLast? = some ']') ∨
      (tok.text.head? = some '(' ∧ tok.text.getLast? = some ')')) := by
  obtain ⟨h1, h2, h3⟩ := scanAux_wellformed _ _ tok hmem
  refine ⟨h1, fun hb c hc => ?_, h3⟩
  have hpc := h2 hb c hc
  simp only [isPlainChar, isSeparatorChar, isBracketChar, Bool.not_eq_true',
    Bool.or_eq_false_iff, beq_eq_false_iff_ne, ne_eq] at hpc
  tauto

theorem split_title_tokens_wellformed_witness :
    ((⟨false, "a".toList⟩ : TitleToken).text ≠ [] ∧
      ((⟨false, "a".toList⟩ : TitleToken).is_bracketed = false →
        ∀ c ∈ (⟨false, "a".toList⟩ : TitleToken).text,
        c.isDigit = false ∧ rsIsWhitespace c = false ∧ c ≠ '-' ∧ c ≠ ':' ∧ c ≠ '：' ∧
        c ≠ '(' ∧ c ≠ ')' ∧ c ≠ '[' ∧ c ≠ ']') ∧
      ((⟨false, "a".toList⟩ : TitleToken).is_bracketed = true →
        ((⟨false, "a".toList⟩ : TitleToken).text.head? = some '[' ∧
          (⟨false, "a".toList⟩ : TitleToken).text.getLast? = some ']') ∨
        ((⟨false, "a".toList⟩ : TitleToken).text.head? = some '(' ∧
          (⟨false, "a".toList⟩ : TitleToken).text.getLast? = some ')'))) :=
  split_title_tokens_wellformed ("a[b]".toList) ⟨false, "a".toList⟩ (by decide)

/-- One way of accounting for every character of a string by a token
sequence: reading left to right, each character either is a skipped
character satisfying `ok` or belongs to the text of the next token, and
each token's text is consumed exactly once, in order. -/
inductive Accounted (ok : Char → Bool) : List Char → List TitleToken → Prop
  | nil : Accounted ok [] []
  | skip {c : Char} {s : List Char} {toks : List TitleToken} :
      ok c = true → Accounted ok s toks → Accounted ok (c :: s) toks
  | tok {s : List Char} {toks : List TitleToken} (t : TitleToken) :
      Accounted ok s toks → Accounted ok (t.text ++ s) (t :: toks)

/-- Characters the scanner may skip without emitting a token: the
separator class plus bracket characters (an unmatched opening bracket, or
a closing bracket with no preceding opening one). -/
def skippableChar (c : Char) : Bool :=
  isSeparatorChar c || isBracketChar c

/-- The scan loop accounts for every character of its input: each one is
either inside exactly one emitted token or is a skipped separator or
bracket character. -/
theorem scanAux_accounted :
    ∀ (fuel : ℕ) (s : List Char), s.length ≤ fuel →
      Accounted skippableChar s (scanAux fuel s) := by
  intro fuel
  induction fuel with
  | zero =>
    intro s hs
    rw [List.length_eq_zero.mp (Nat.le_zero.mp hs)]
    exact Accounted.nil
  | succ n ih =>
    intro s hs
    match s with
    | [] => exact Accounted.nil
    | c :: rest =>
      have hrest : rest.length ≤ n := by
        have := hs
        simp only [List.length_cons] at this
        omega
      rw [scanAux]
      by_cases hp : c = '('
      · rw [if_pos hp]
        cases hdel : takeDelim ')' rest with
        | none =>
          exact Accounted.skip (by simp [skippableChar, isBracketChar, hp]) (ih rest hrest)
        | some pr =>
          obtain ⟨tk, r⟩ := pr
          obtain ⟨hsr, -, -⟩ := takeDelim_sound ')' rest tk r hdel
          have hr : r.length ≤ n := by
            have : rest.length = tk.length + r.length := by rw [hsr, List.length_append]
            omega
          have hacc := Accounted.tok ⟨true, c :: tk⟩ (ih r hr)
          simpa [hsr] using hacc
      · rw [if_neg hp]
        by_cases hb : c = '['
        · rw [if_pos hb]
          cases hdel : takeDelim ']' rest with
          | none =>
            exact Accounted.skip (by simp [skippableChar, isBracketChar, hb]) (ih rest hrest)
          | some pr =>
            obtain ⟨tk, r⟩ := pr
            obtain ⟨hsr, -, -⟩ := takeDelim_sound ']' rest tk r hdel
            have hr : r.length ≤ n := by
              have : rest.length = tk.length + r.length := by rw [hsr, List.length_append]
              omega
            have hacc := Accounted.tok ⟨true, c :: tk⟩ (ih r hr)
            simpa [hsr] using hacc
        · rw [if_neg hb]
          by_cases hpl : isPlainChar c = true
          · rw [if_pos hpl]
            have hr : (rest.dropWhile isPlainChar).length ≤ n := by
              have h1 : (rest.dropWhile isPlainChar).length ≤ rest.length := by
                have := List.takeWhile_append_dropWhile isPlainChar rest
                have hlen := congrArg List.length this
                rw [List.length_append] at hlen
                omega
              omega
            have hacc := Accounted.tok
              ⟨false, c :: rest.takeWhile isPlainChar⟩
              (ih (rest.dropWhile isPlainChar) hr)
            simpa [List.takeWhile_append_dropWhile] using hacc
          · rw [if_neg hpl]
            have hc : skippableChar c = true := by
              simp only [isPlainChar, Bool.not_eq_true', Bool.not_eq_false] at hpl
              exact hpl
            exact Accounted.skip hc (ih rest hrest)

/-- When a string is accounted for with no tokens at all, every one of
its characters is a skipped character. -/
theorem accounted_nil_all_ok (ok : Char → Bool) :
    ∀ (s : List Char) (toks : List TitleToken), Accounted ok s toks →
      toks = [] → ∀ c ∈ s, ok c = true := by
  intro s toks h
  induction h with
  | nil => intro _ c hc; simp at hc
  | skip hok _ ih =>
    intro ht c hc
    rcases List.mem_cons.mp hc with rfl | hc
    · exact hok
    · exact ih ht c hc
  | tok t _ ih => intro ht; simp at ht

/-- Claim C5 as stated is false: in the title consisting of the single
character open-bracket, that character is not part of any emitted token
(the token list is empty) and is not in the separator class of digits,
whitespace, hyphens and colons. -/
theorem token_partition_sep_only_fails :
    ¬ Accounted isSeparatorChar (standardize_brackets ("[".toList))
      (split_title_tokens ("[".toList)) := by
  rw [show standardize_brackets ("[".toList) = ['['] from by decide,
    show split_title_tokens ("[".toList) = [] from by decide]
  intro h
  have := accounted_nil_all_ok isSeparatorChar ['['] [] h rfl '[' (by simp)
  exact absurd this (by decide)

/-- Claim C5 amended: every character of the bracket-standardized title
is accounted for by exactly one emitted token, or is a skipped character
belonging to the separator class (digits, whitespace, hyphens, colons)
extended with the bracket characters — an unmatched bracket or stray
closing bracket is skipped without being emitted. -/
theorem token_partition_with_brackets (title : List Char) :
    Accounted skippableChar (standardize_brackets title) (split_title_tokens title) :=
  scanAux_accounted _ _ (Nat.le_refl _)

/-- The scan loop of an empty input emits no token, for any fuel. -/
theorem scanAux_nil (fuel : ℕ) : scanAux fuel [] = [] := by
  cases fuel <;> rfl

/-- On a non-empty all-plain input the scan loop emits exactly one plain
token carrying the whole input. -/
theorem scanAux_all_plain :
    ∀ (fuel : ℕ) (c : Char) (rest : List Char), (c :: rest).length ≤ fuel →
      (∀ d ∈ c :: rest, isPlainChar d = true) →
      scanAux fuel (c :: rest) = [⟨false, c :: rest⟩] := by
  intro fuel c rest hlen hall
  match fuel with
  | 0 => simp at hlen
  | n + 1 =>
    rw [scanAux]
    have hc : isPlainChar c = true := hall c (by simp)
    have hp : ¬ c = '(' := by
      intro h
      rw [h] at hc
      simp [isPlainChar, isBracketChar] at hc
    have hb : ¬ c = '[' := by
      intro h
      rw [h] at hc
      simp [isPlainChar, isBracketChar] at hc
    rw [if_neg hp, if_neg hb, if_pos hc]
    have htake : rest.takeWhile isPlainChar = rest :=
      List.takeWhile_eq_self_iff.mpr fun d hd => hall d (by simp [hd])
    have hdropn : rest.dropWhile isPlainChar = [] :=
      List.dropWhile_eq_nil_iff.mpr fun d hd => hall d (by simp [hd])
    rw [htake, hdropn, scanAux_nil]

/-- Claim C6 as stated is false: for the title Hello the tokenizer emits
the single plain token Hello, and concatenating the token texts in order
reproduces the original title exactly. -/
theorem concat_tokens_reproduces_title :
    ((split_title_tokens ("Hello".toList)).map TitleToken.text).flatten
      = "Hello".toList := by decide

/-- Claim C6 amended: concatenating the token texts does not in general
reproduce the title — it does so exactly for every title all of whose
characters are plain-class characters left unchanged by bracket
standardization (no separator, bracket, or replaced glyph), and such
titles exist, so the tokenizer is not universally lossy. -/
theorem concat_tokens_plain_title_id (title : List Char)
    (h : ∀ c ∈ title, isPlainChar c = true ∧ standardizeChar c = c) :
    ((split_title_tokens title).map TitleToken.text).flatten = title := by
  have hstd : standardize_brackets title = title := by
    rw [standardize_brackets_eq_map]
    calc title.map standardizeChar = title.map id :=
          List.map_congr_left fun c hc => (h c hc).2
      _ = title := List.map_id title
  unfold split_title_tokens
  rw [hstd]
  cases title with
  | nil => rw [scanAux_nil]; rfl
  | cons c rest =>
    rw [scanAux_all_plain _ c rest (Nat.le_refl _) fun d hd => (h d hd).1]
    simp

theorem concat_tokens_plain_title_id_witness :
    ((split_title_tokens ("Hello".toList)).map TitleToken.text).flatten
        = "Hello".toList ∧ True :=
  ⟨concat_tokens_plain_title_id ("Hello".toList) (by decide), trivial⟩

/-- With an empty table and a positive threshold, the ratio test can
never succeed — in particular not when `total = 0`, where the rational
junk value 0/0 = 0 (mirroring Rust's NaN comparison, which is also false
for a zero count) is compared against the threshold — so every token is
kept. -/
theorem cleanLoop_empty_table (total : ℕ) (threshold : ℚ) (h : 0 < threshold) :
    ∀ toks : List TitleToken,
      cleanLoop [] total threshold true toks = toks.map TitleToken.text := by
  intro toks
  cases toks with
  | nil => rfl
  | cons tok rest =>
    by_cases hb : tok.is_bracketed = true
    · simp [cleanLoop, hb, cleanLoop_keep_all]
    · have hr : ¬ ((lookupCount [] tok.text : ℚ) / (total : ℚ) ≥ threshold) := by
        simp only [lookupCount, Nat.cast_zero, zero_div, ge_iff_le, not_le]
        exact h
      simp [cleanLoop, hb, hr, cleanLoop_keep_all]

/-- Claim C7 amended: `dynamic_clean_title` does not check the
preconditions `total_titles >= 1` and `threshold` in (0, 1]: a call that
violates them (here `total_titles = 0`) is not rejected and still
returns an ordinary cleaned-title string — with an empty table the ratio
comparison against the undefined ratio fails, every token is kept, and
the result is the trimmed join of all token texts. -/
theorem clean_no_precondition_check (title : List Char) (threshold : ℚ)
    (h : 0 < threshold) :
    dynamic_clean_title title [] 0 threshold
      = rustTrim ((split_title_tokens title).map TitleToken.text).flatten := by
  unfold dynamic_clean_title
  rw [cleanLoop_empty_table 0 threshold h]

theorem clean_no_precondition_check_witness :
    dynamic_clean_title ("Hi [x]".toList) [] 0 (1/2)
      = rustTrim ((split_title_tokens ("Hi [x]".toList)).map TitleToken.text).flatten :=
  clean_no_precondition_check ("Hi [x]".toList) (1/2) (by norm_num)

/-- Claim C7 as stated is false: the call with `total_titles = 0`
violates the stated precondition, yet the function returns the ordinary
cleaned-title result (here the unchanged title) instead of failing
fast. -/
theorem clean_total_zero_returns_result :
    dynamic_clean_title ("Hello".toList) [] 0 (4/5) = "Hello".toList := by
  unfold dynamic_clean_title
  rw [cleanLoop_empty_table 0 (4/5) (by norm_num)]
  decide

theorem lookupCount_bump_self :
    ∀ (tbl : FreqTable) (k : List Char),
      lookupCount (bump tbl k) k = lookupCount tbl k + 1 := by
  intro tbl k
  induction tbl with
  | nil => simp [bump, lookupCount]
  | cons p rest ih =>
    obtain ⟨k', v⟩ := p
    by_cases hk : k' = k
    · simp [bump, lookupCount, hk]
    · simp [bump, lookupCount, hk, ih]

theorem lookupCount_bump_ne :
    ∀ (tbl : FreqTable) (k' k : List Char), k' ≠ k →
      lookupCount (bump tbl k') k = lookupCount tbl k := by
  intro tbl k' k hne
  induction tbl with
  | nil => simp [bump, lookupCount, hne]
  | cons p rest ih =>
    obtain ⟨k0, v⟩ := p
    by_cases hk : k0 = k'
    · simp [bump, lookupCount, hk, hne]
    · by_cases hk2 : k0 = k
      · simp [bump, lookupCount, hk, hk2, hne.symm]
      · simp [bump, lookupCount, hk, hk2, ih]

/-- Folding one token list into the table adds, for every key, the
number of its non-bracketed occurrences in that list. -/
theorem lookupCount_addTitle :
    ∀ (toks : List TitleToken) (tbl : FreqTable) (k : List Char),
      lookupCount (addTitle tbl toks) k
        = lookupCount tbl k
          + (toks.filter fun tok => !tok.is_bracketed && tok.text == k).length := by
  intro toks
  induction toks with
  | nil => intro tbl k; simp [addTitle]
  | cons tok rest ih =>
    intro tbl k
    rw [show addTitle tbl (tok :: rest)
        = addTitle (if tok.is_bracketed then tbl else bump tbl tok.text) rest from rfl]
    by_cases hbr : tok.is_bracketed = true
    · simp only [hbr, if_pos, ite_true, ih, List.filter_cons, Bool.true_and,
        Bool.not_true, Bool.false_and, Bool.false_eq_true, ite_false]
    · rw [if_neg (by simp [hbr])]
      by_cases hk : tok.text = k
      · rw [ih, hk, lookupCount_bump_self]
        have hf : (tok :: rest).filter
            (fun tok => !tok.is_bracketed && tok.text == k)
            = tok :: rest.filter (fun tok => !tok.is_bracketed && tok.text == k) := by
          rw [List.filter_cons, if_pos (by simp [hbr, hk])]
        rw [hf, List.length_cons]
        omega
      · rw [ih, lookupCount_bump_ne tbl tok.text k hk]
        have hf : (tok :: rest).filter
            (fun tok => !tok.is_bracketed && tok.text == k)
            = rest.filter (fun tok => !tok.is_bracketed && tok.text == k) := by
          rw [List.filter_cons, if_neg (by simp [hk])]
        rw [hf]

theorem lookupCount_build_fold :
    ∀ (titles : List (List Char)) (tbl : FreqTable) (k : List Char),
      lookupCount (titles.foldl (fun t title => addTitle t (split_title_tokens title)) tbl) k
        = lookupCount tbl k
          + (titles.map fun t =>
              ((split_title_tokens t).filter fun tok =>
                !tok.is_bracketed && tok.text == k).length).sum := by
  intro titles
  induction titles with
  | nil => intro tbl k; simp
  | cons title rest ih =>
    intro tbl k
    rw [List.foldl_cons, ih, lookupCount_addTitle, List.map_cons, List.sum_cons]
    omega

/-- Claim C8: the frequency table built from a batch maps every key to
the total number of occurrences of that exact text among the plain
(non-bracketed) tokens of all titles combined — once per occurrence, not
once per title, with bracketed tokens never contributing — and permuting
the batch leaves every count unchanged. -/
theorem build_token_frequency_counts
    (titles titles' : List (List Char)) (key : List Char)
    (hperm : titles.Perm titles') :
    lookupCount (build_token_frequency titles) key
      = (titles.map fun t =>
          ((split_title_tokens t).filter fun tok =>
            !tok.is_bracketed && tok.text == key).length).sum
    ∧ lookupCount (build_token_frequency titles') key
      = lookupCount (build_token_frequency titles) key := by
  have hb : ∀ ts : List (List Char),
      lookupCount (build_token_frequency ts) key
        = (ts.map fun t =>
            ((split_title_tokens t).filter fun tok =>
              !tok.is_bracketed && tok.text == key).length).sum := by
    intro ts
    rw [show build_token_frequency ts
        = ts.foldl (fun t title => addTitle t (split_title_tokens title)) [] from rfl,
      lookupCount_build_fold]
    simp [lookupCount]
  refine ⟨hb titles, ?_⟩
  rw [hb titles, hb titles']
  exact (hperm.map _).sum_eq.symm

theorem build_token_frequency_counts_witness :
    lookupCount
        (build_token_frequency ["Chapter 1".toList, "Prologue".toList]) ("Chapter".toList)
      = ((["Chapter 1".toList, "Prologue".toList].map fun t =>
          ((split_title_tokens t).filter fun tok =>
            !tok.is_bracketed && tok.text == "Chapter".toList).length).sum)
    ∧ lookupCount
        (build_token_frequency ["Prologue".toList, "Chapter 1".toList]) ("Chapter".toList)
      = lookupCount
        (build_token_frequency ["Chapter 1".toList, "Prologue".toList]) ("Chapter".toList) :=
  build_token_frequency_counts
    ["Chapter 1".toList, "Prologue".toList]
    ["Prologue".toList, "Chapter 1".toList]
    ("Chapter".toList) (by decide)

end M4b
